import Mathlib

/-!
Shallow embedding of the core decoding algorithms of the repository:

* the back-reference (LZ-style) decompressor `decompress` of the PGD image
  decoder (`static bstr decompress(const bstr &input, const size_t size_orig)`),
* the delta line filter `apply_delta_filter` of the same decoder,
* the run-length pixel decoder `read_compressed_pixel_data` of the TGA decoder,
* the recognition predicates `TgaImageDecoder::is_recognized_impl` and
  `AcdImageDecoder::is_recognized_internal`.

Byte streams are `List Nat` (each element one byte value), consumed from the
front; a read past the end of the stream corresponds to the C++ stream
throwing, modelled as `Except.error Err.outOfData`.  Machine bytes are plain
`Nat` with explicit `% 256` where u8 overflow matters.
-/

/-- Failure kinds of the embedded code paths: `outOfData` models the stream
abstraction throwing on a read/seek past the end, `badBackReference` models
`err::BadDataOffsetError` of the LZ copy, `sizeMismatch` models
`err::BadDataSizeError`, `unknownDeltaFilter` models the
`err::CorruptDataError("Unknown delta spec")` throw. -/
inductive Err
  | outOfData
  | badBackReference
  | sizeMismatch
  | unknownDeltaFilter
  deriving DecidableEq, Repr

/-- Decidable equality on `Except`, so that concrete runs of the embedded code
can be checked by `decide`. -/
instance {ε α : Type} [DecidableEq ε] [DecidableEq α] : DecidableEq (Except ε α) :=
  fun a b =>
    match a, b with
    | .error e, .error f =>
      if h : e = f then .isTrue (by rw [h])
      else .isFalse (by intro hh; cases hh; exact h rfl)
    | .ok x, .ok y =>
      if h : x = y then .isTrue (by rw [h])
      else .isFalse (by intro hh; cases hh; exact h rfl)
    | .error _, .ok _ => .isFalse (by intro hh; cases hh)
    | .ok _, .error _ => .isFalse (by intro hh; cases hh)

/-- `io.read_u8()`: one byte from the front of the stream. -/
def readU8 : List Nat → Except Err (Nat × List Nat)
  | [] => .error .outOfData
  | b :: rest => .ok (b, rest)

/-- `io.read_u16_le()`: two bytes, little-endian (`b0 + 256*b1`, spec section 6). -/
def readU16le : List Nat → Except Err (Nat × List Nat)
  | b0 :: b1 :: rest => .ok (b0 + 256 * b1, rest)
  | _ => .error .outOfData

/-- `io.read(n)`: the next `n` bytes, failing when fewer remain. -/
def readBytes (n : Nat) (l : List Nat) : Except Err (List Nat × List Nat) :=
  if n ≤ l.length then .ok (l.take n, l.drop n) else .error .outOfData

/-- Subtraction of u8 values with wrap-around: `(a - b) mod 256`,
written so that it is correct for every `Nat` input. -/
def sub8 (a b : Nat) : Nat := (a + 256 - b % 256) % 256

/-- "TRUEVISION-XFILE\x2E\x00", the footer magic of the TGA decoder. -/
def tgaMagic : List Nat :=
  [84, 82, 85, 69, 86, 73, 83, 73, 79, 78, 45, 88, 70, 73, 76, 69, 46, 0]

/-- "ACD 1.00", the header magic of the ACD decoder. -/
def acdMagic : List Nat := [65, 67, 68, 32, 49, 46, 48, 48]

/-- `TgaImageDecoder::is_recognized_impl`:
`file.io.seek(file.io.size() - magic.size())` underflows (`size_t`) for files
shorter than the footer, so the seek throws; otherwise the trailing bytes are
compared with the footer and, on mismatch, `file.has_extension("tga")` decides
(modelled by the `hasTgaExt` flag). -/
def tga_is_recognized (bytes : List Nat) (hasTgaExt : Bool) : Except Err Bool :=
  if bytes.length < tgaMagic.length then .error .outOfData
  else .ok (if bytes.drop (bytes.length - tgaMagic.length) = tgaMagic
            then true else hasTgaExt)

/-- `AcdImageDecoder::is_recognized_internal`: reads `magic.size()` bytes from
the start (throwing when the file is shorter) and compares with the magic. -/
def acd_is_recognized (bytes : List Nat) : Except Err Bool :=
  if bytes.length < acdMagic.length then .error .outOfData
  else .ok (decide (bytes.take acdMagic.length = acdMagic))

/-!
## Back-reference decompressor (`decompress` of the PGD decoder)

The C++ routine pre-allocates `bstr output(size_orig)` (zero-filled) and writes
through `output_ptr`; here the written prefix is the list `out`, and a read of
a not-yet-written buffer position (possible only for look-behind 0, where
`src_ptr` equals `output_ptr`) yields the buffer's initial fill, carried as the
`fill` parameter (`0` for `bstr`).
-/

/-- Repeat count of a short back-reference token: `(tmp & 7) + 4`. -/
def shortReps (tmp : Nat) : Nat := (tmp &&& 7) + 4

/-- Look-behind distance of a short back-reference token: `tmp >> 4`. -/
def shortLB (tmp : Nat) : Nat := tmp >>> 4

/-- Repeat count of a long back-reference token:
`((((tmp & 0xFFC) >> 2) + 1) << 2) | (tmp & 3)`. -/
def longReps (t : Nat) : Nat := ((((t &&& 0xFFC) >>> 2) + 1) <<< 2) ||| (t &&& 3)

/-- Look-behind distance of a long back-reference token: `tmp >> 12`. -/
def longLB (t : Nat) : Nat := t >>> 12

/-- The back-reference copy loop
`while (output_ptr < output_end && repetitions--) *output_ptr++ = *src_ptr++;`
with `src_ptr` aliasing the output buffer: position `src` of the buffer is
`out.getD src fill` (already-written positions hold their byte, positions at or
past the write cursor still hold the initial fill). -/
def copyBack (out : List Nat) (src reps n fill : Nat) : List Nat :=
  match reps with
  | 0 => out
  | r + 1 =>
    if out.length < n then copyBack (out ++ [out.getD src fill]) (src + 1) r n fill
    else out

/-- The literal copy loop
`while (output_ptr < output_end && repetitions--) *output_ptr++ = *src_ptr++;`
over the `repetitions` bytes previously read from the input. -/
def copyLit (out : List Nat) (src : List Nat) (n : Nat) : List Nat :=
  match src with
  | [] => out
  | b :: rest => if out.length < n then copyLit (out ++ [b]) rest n else out

/-- One token of the decompressor, given the already-extracted control bit
`isRef` (`control & 1`): a set bit reads a two-byte token (plus a third byte in
the long form) and copies from already-produced output, failing with
`BadBackReference` when `src_ptr = output_ptr - look_behind` precedes the
output start; a clear bit reads an 8-bit count and that many literal bytes. -/
def lzToken (isRef : Bool) (out input : List Nat) (n fill : Nat) :
    Except Err (List Nat × List Nat) :=
  if isRef then
    match readU16le input with
    | .error e => .error e
    | .ok (tmp, inp2) =>
      if (tmp &&& 8) ≠ 0 then
        if out.length < shortLB tmp then .error .badBackReference
        else .ok (copyBack out (out.length - shortLB tmp) (shortReps tmp) n fill, inp2)
      else
        match readU8 inp2 with
        | .error e => .error e
        | .ok (b2, inp3) =>
          let t := (tmp <<< 8) ||| b2
          if out.length < longLB t then .error .badBackReference
          else .ok (copyBack out (out.length - longLB t) (longReps t) n fill, inp3)
  else
    match readU8 input with
    | .error e => .error e
    | .ok (cnt, inp2) =>
      match readBytes cnt inp2 with
      | .error e => .error e
      | .ok (bytes, inp3) => .ok (copyLit out bytes n, inp3)

/-- `control >>= 1; if (!(control & 0x100)) control = input_io.read_u8() | 0xFF00;`
applied to the already-shifted word `c1`. -/
def refill (c1 : Nat) (input : List Nat) : Except Err (Nat × List Nat) :=
  if c1 &&& 0x100 = 0 then
    match readU8 input with
    | .error e => .error e
    | .ok (b, rest) => .ok (b ||| 0xFF00, rest)
  else .ok (c1, input)

/-- One iteration of the decompressor's `while` body: shift the control word,
refill it when its bit supply is exhausted, then dispatch on `control & 1`. -/
def lzStep (control : Nat) (out input : List Nat) (n fill : Nat) :
    Except Err (Nat × List Nat × List Nat) :=
  match refill (control >>> 1) input with
  | .error e => .error e
  | .ok (c2, inp1) =>
    match lzToken ((c2 &&& 1) = 1) out inp1 n fill with
    | .error e => .error e
    | .ok (out2, inp2) => .ok (c2, out2, inp2)

/-- The decompressor's `while (output_ptr < output_end)` loop.  `fuel` only
bounds the iteration count; every successful iteration consumes at least one
input byte, so `input.length + 1` fuel (see `decompress`) never runs out. -/
def lzLoop : Nat → Nat → List Nat → List Nat → Nat → Nat →
    Except Err (List Nat × List Nat)
  | 0, _, _, _, _, _ => .error .outOfData
  | fuel + 1, control, out, input, n, fill =>
    if out.length < n then
      match lzStep control out input n fill with
      | .error e => .error e
      | .ok (c2, out2, inp2) => lzLoop fuel c2 out2 inp2 n fill
    else .ok (out, input)

/-- `static bstr decompress(const bstr &input, const size_t size_orig)`:
control word starts at `0`, output buffer empty (zero fill), and the result is
the produced bytes together with the unconsumed rest of the input. -/
def decompress (input : List Nat) (size_orig : Nat) :
    Except Err (List Nat × List Nat) :=
  lzLoop (input.length + 1) 0 [] input size_orig 0

/-!
## Reference formulations of the control-bit supply

`lzLoopB` is a clean reformulation of the control mechanism: it carries the
current control byte and the number of bits already consumed from it, takes
bit `used` (that is, least-significant-bit-first) of the byte, and reads a
fresh byte after 8 bits.  `lzLoopMSB` follows the spec's words instead
("control bits MSB-first per control byte"): it takes bit `7 - used`.
The refinement theorem for C3 proves `decompress` equal to the LSB version.
-/

/-- LSB-first reference loop: state `(cbyte, used)`, next control bit is bit
`used` of `cbyte`; when all 8 bits are consumed a fresh byte is read. -/
def lzLoopB : Nat → Nat → Nat → List Nat → List Nat → Nat → Nat →
    Except Err (List Nat × List Nat)
  | 0, _, _, _, _, _, _ => .error .outOfData
  | fuel + 1, cbyte, used, out, input, n, fill =>
    if out.length < n then
      match (if 8 ≤ used then
               match readU8 input with
               | .error e => .error e
               | .ok (b, rest) => .ok (b, 0, rest)
             else .ok (cbyte, used, input) :
             Except Err (Nat × Nat × List Nat)) with
      | .error e => .error e
      | .ok (b, u, inp1) =>
        match lzToken (b.testBit u) out inp1 n fill with
        | .error e => .error e
        | .ok (out2, inp2) => lzLoopB fuel b (u + 1) out2 inp2 n fill
    else .ok (out, input)

/-- Modelled from the spec: same machine as `lzLoopB` but taking control bits
most-significant-bit-first (bit `7 - used`), the order the spec asserts. -/
def lzLoopMSB : Nat → Nat → Nat → List Nat → List Nat → Nat → Nat →
    Except Err (List Nat × List Nat)
  | 0, _, _, _, _, _, _ => .error .outOfData
  | fuel + 1, cbyte, used, out, input, n, fill =>
    if out.length < n then
      match (if 8 ≤ used then
               match readU8 input with
               | .error e => .error e
               | .ok (b, rest) => .ok (b, 0, rest)
             else .ok (cbyte, used, input) :
             Except Err (Nat × Nat × List Nat)) with
      | .error e => .error e
      | .ok (b, u, inp1) =>
        match lzToken (b.testBit (7 - u)) out inp1 n fill with
        | .error e => .error e
        | .ok (out2, inp2) => lzLoopMSB fuel b (u + 1) out2 inp2 n fill
    else .ok (out, input)

/-- The decompressor with the LSB-first reference control supply. -/
def decompressLSB (input : List Nat) (size_orig : Nat) :
    Except Err (List Nat × List Nat) :=
  lzLoopB (input.length + 1) 0 8 [] input size_orig 0

/-- Modelled from the spec: the decompressor with the MSB-first control supply
the spec describes. -/
def decompressMSB (input : List Nat) (size_orig : Nat) :
    Except Err (List Nat × List Nat) :=
  lzLoopMSB (input.length + 1) 0 8 [] input size_orig 0

/-!
## Delta line filter (`apply_delta_filter` of the PGD decoder)

The C++ routine copies the input into `output` and mutates it row by row.
`prev_line` is `output.get<u8>() + (y - 1) * stride`: for `y = 0` this points
*before* the buffer, so a read through it yields whatever byte happens to sit
in memory there — modelled by the unconstrained function `junk` (normalised to
a byte value, as any real memory read would be).
-/

/-- Byte at position `i` of a buffer (0 outside — only used in-bounds except
through `junk`, which is explicit). -/
def getB (b : List Nat) (i : Nat) : Nat := b.getD i 0

/-- Row loop of selector code 1,
`for (auto x : util::range(channels, stride)) dst_line[x] = dst_line[x - channels] - dst_line[x];`,
as a fold over the index range `[channels, stride)`. -/
def rowRecon1 (b : List Nat) (base ch stride : Nat) : List Nat :=
  (List.range' ch (stride - ch)).foldl
    (fun b x => b.set (base + x) (sub8 (getB b (base + x - ch)) (getB b (base + x)))) b

/-- Row loop of selector code 2,
`for (auto x : util::range(stride)) dst_line[x] = prev_line[x] - dst_line[x];`,
with the previous row's bytes supplied by `prev`. -/
def rowRecon2 (prev : Nat → Nat) (b : List Nat) (base stride : Nat) : List Nat :=
  (List.range' 0 stride).foldl
    (fun b x => b.set (base + x) (sub8 (prev x) (getB b (base + x)))) b

/-- Row loop of selector code 4,
`for (auto x : util::range(channels, stride))` with
`dst_line[x] = (prev_line[x] + dst_line[x - channels]) / 2 - dst_line[x];`. -/
def rowRecon4 (prev : Nat → Nat) (b : List Nat) (base ch stride : Nat) : List Nat :=
  (List.range' ch (stride - ch)).foldl
    (fun b x =>
      b.set (base + x) (sub8 ((prev x + getB b (base + x - ch)) / 2) (getB b (base + x)))) b

/-- The body of the `for (auto y : util::range(height))` loop of
`apply_delta_filter`, dispatching on the selector byte `delta_spec[y]`; rows
before `y` are already reconstructed in `b`.  For `y = 0` the C++ `prev_line`
pointer `output.get<u8>() + (y - 1) * stride` points before the buffer, so its
bytes are the unspecified memory `junk`. -/
def deltaRowStep (junk : Nat → Nat) (dspec : List Nat) (stride ch : Nat)
    (b : List Nat) (y : Nat) : Except Err (List Nat) :=
  let prev : Nat → Nat :=
    fun x => if y = 0 then junk x % 256 else getB b ((y - 1) * stride + x)
  if dspec.getD y 0 = 1 then .ok (rowRecon1 b (y * stride) ch stride)
  else if dspec.getD y 0 = 2 then .ok (rowRecon2 prev b (y * stride) stride)
  else if dspec.getD y 0 = 4 then .ok (rowRecon4 prev b (y * stride) ch stride)
  else .error .unknownDeltaFilter

/-- `static bstr apply_delta_filter(const bstr &delta_spec, bstr &input, ...)`:
checks `delta_spec.size() == height` and
`input.size() >= width * height * channels`, then reconstructs row by row. -/
def apply_delta_filter (junk : Nat → Nat) (delta_spec input : List Nat)
    (width height channels : Nat) : Except Err (List Nat) :=
  let stride := width * channels
  if delta_spec.length ≠ height then .error .sizeMismatch
  else if input.length < width * height * channels then .error .sizeMismatch
  else (List.range height).foldlM (deltaRowStep junk delta_spec stride channels) input

/-- Modelled from the spec: the forward horizontal-difference transform that
selector code 1 inverts — the stored value is `orig[x - channels] - orig[x]`
for `x ≥ channels`, the first channel group is stored unfiltered. -/
def fwdRow1 (o : List Nat) (ch : Nat) : List Nat :=
  (List.range o.length).map
    (fun x => if x < ch then getB o x else sub8 (getB o (x - ch)) (getB o x))

/-- Modelled from the spec: the forward vertical-difference transform that
selector code 2 inverts — the stored value is `prev[x] - orig[x]`. -/
def fwdRow2 (prev : Nat → Nat) (o : List Nat) : List Nat :=
  (List.range o.length).map (fun x => sub8 (prev x) (getB o x))

/-- Modelled from the spec: the forward average transform that selector code 4
inverts — the stored value is `(prev[x] + orig[x - channels]) / 2 - orig[x]`
for `x ≥ channels`, the first channel group unfiltered. -/
def fwdRow4 (prev : Nat → Nat) (o : List Nat) (ch : Nat) : List Nat :=
  (List.range o.length).map
    (fun x => if x < ch then getB o x
              else sub8 ((prev x + getB o (x - ch)) / 2) (getB o x))

/-!
## Run-length pixel decoder (`read_compressed_pixel_data` of the TGA decoder)
-/

/-- `for (auto i : util::range(repetitions)) output += chunk;`. -/
def appendReps (out chunk : List Nat) (k : Nat) : List Nat :=
  match k with
  | 0 => out
  | k + 1 => appendReps (out ++ chunk) chunk k

/-- `for (auto i : util::range(repetitions)) output += io.read(channels);`. -/
def readChunks (k channels : Nat) (out input : List Nat) :
    Except Err (List Nat × List Nat) :=
  match k with
  | 0 => .ok (out, input)
  | k + 1 =>
    match readBytes channels input with
    | .error e => .error e
    | .ok (chunk, rest) => readChunks k channels (out ++ chunk) rest

/-- The packet loop of `read_compressed_pixel_data`.  `fuel` only bounds the
iteration count; every packet consumes at least its control byte. -/
def rleLoop : Nat → List Nat → List Nat → Nat → Nat →
    Except Err (List Nat × List Nat)
  | 0, _, _, _, _ => .error .outOfData
  | fuel + 1, out, input, target, channels =>
    if out.length < target then
      match readU8 input with
      | .error e => .error e
      | .ok (control, rest) =>
        let repetitions := (control &&& 0x7F) + 1
        if control &&& 0x80 ≠ 0 then
          match readBytes channels rest with
          | .error e => .error e
          | .ok (chunk, rest2) =>
            rleLoop fuel (appendReps out chunk repetitions) rest2 target channels
        else
          match readChunks repetitions channels out rest with
          | .error e => .error e
          | .ok (out2, rest2) => rleLoop fuel out2 rest2 target channels
    else .ok (out, input)

/-- Modelled from the spec: `bstr::reserve/capacity` (library code not under
`src/`) is modelled per spec section 4.5/8 as a capacity of exactly
`width * height * channels`, so the loop guard
`output.size() < output.capacity()` becomes `out.length < width*height*channels`.
The rest is `static bstr read_compressed_pixel_data(io::IO &io, ...)` verbatim:
per packet a control byte, `(control & 0x7F) + 1` repetitions, the high bit
selecting replicate-one-chunk versus read-that-many-chunks. -/
def read_compressed_pixel_data (input : List Nat) (width height channels : Nat) :
    Except Err (List Nat × List Nat) :=
  rleLoop (input.length + 1) [] input (width * height * channels) channels

/-!
## Claim theorems: recognizers (C9, C10) and the delta-filter row-0 bug (C6)
-/

/-- C9, counterexample: on a stream shorter than the probed signature, both
cited `is_recognized` implementations propagate an out-of-data failure instead
of returning `false` — the ACD one from `file.io.read(magic.size())`, the TGA
one from the underflowing `seek(file.io.size() - magic.size())`. -/
theorem c9_counterexample_short_stream_throws :
    acd_is_recognized [0, 0, 0] = .error .outOfData ∧
    tga_is_recognized [0, 0, 0] false = .error .outOfData := by decide

/-- C9, amended: the `is_recognized` implementations perform no internal
bounds checks — a stream shorter than the signature makes them fail with an
out-of-data error; only a stream long enough to service the probe yields
`false` on a mismatched signature (the TGA decoder then falling back to the
file-name extension). -/
theorem c9_recognizers_bounds (bytes : List Nat) (ext : Bool) :
    (bytes.length < tgaMagic.length →
      tga_is_recognized bytes ext = .error .outOfData) ∧
    (tgaMagic.length ≤ bytes.length →
      bytes.drop (bytes.length - tgaMagic.length) ≠ tgaMagic →
      tga_is_recognized bytes ext = .ok ext) ∧
    (bytes.length < acdMagic.length →
      acd_is_recognized bytes = .error .outOfData) ∧
    (acdMagic.length ≤ bytes.length → bytes.take acdMagic.length ≠ acdMagic →
      acd_is_recognized bytes = .ok false) := by
  refine ⟨fun h => ?_, fun h1 h2 => ?_, fun h => ?_, fun h1 h2 => ?_⟩
  · unfold tga_is_recognized
    rw [if_pos h]
  · unfold tga_is_recognized
    rw [if_neg (by omega), if_neg h2]
  · unfold acd_is_recognized
    rw [if_pos h]
  · unfold acd_is_recognized
    rw [if_neg (by omega), decide_eq_false h2]

/-- C9, witness for `c9_recognizers_bounds` at concrete streams. -/
theorem c9_witness :
    tga_is_recognized [0] false = .error .outOfData ∧
    tga_is_recognized (List.replicate 18 0) false = .ok false ∧
    acd_is_recognized [0] = .error .outOfData ∧
    acd_is_recognized (List.replicate 8 0) = .ok false :=
  ⟨(c9_recognizers_bounds [0] false).1 (by decide),
   (c9_recognizers_bounds (List.replicate 18 0) false).2.1 (by decide) (by decide),
   (c9_recognizers_bounds [0] false).2.2.1 (by decide),
   (c9_recognizers_bounds (List.replicate 8 0) false).2.2.2 (by decide) (by decide)⟩

/-- C10, counterexample: a 5-byte file whose name has the `tga` extension is
not recognized — the underflowing seek makes recognition fail with an
out-of-data error, so "any file whose name has the extension tga" is too
strong. -/
theorem c10_counterexample_short_tga_file :
    tga_is_recognized [0, 0, 0, 0, 0] true = .error .outOfData ∧
    tga_is_recognized [0, 0, 0, 0, 0] true ≠ .ok true := by decide

/-- C10, amended: for a file at least as long as the 18-byte footer whose name
has the `tga` extension, recognition returns `true` regardless of the file's
bytes — in particular with no footer (nor any other signature) present. -/
theorem c10_tga_extension_recognized (bytes : List Nat)
    (h : tgaMagic.length ≤ bytes.length) :
    tga_is_recognized bytes true = .ok true := by
  unfold tga_is_recognized
  rw [if_neg (by omega)]
  split <;> rfl

/-- C10, witness for `c10_tga_extension_recognized` on a concrete
footer-less file. -/
theorem c10_witness : tga_is_recognized (List.replicate 18 7) true = .ok true :=
  c10_tga_extension_recognized (List.replicate 18 7) (by decide)

/-- C6 (code bug): for row 0 with selector code 2 the reconstruction reads the
byte *before* the output buffer (`prev_line = output + (0-1)*stride`), so the
result depends on unspecified memory: with the byte before the buffer being
100 the filter yields `100 - 30 = 70`, with it being 0 it yields
`0 - 30 = 226` — the claim's all-zero virtual row is only obtained for the
accidental value 0. -/
theorem c6_row0_reads_unspecified_memory :
    apply_delta_filter (fun _ => 100) [2] [30] 1 1 1 = .ok [70] ∧
    apply_delta_filter (fun _ => 0) [2] [30] 1 1 1 = .ok [226] ∧
    apply_delta_filter (fun _ => 0) [3] [30] 1 1 1 = .error .unknownDeltaFilter ∧
    apply_delta_filter (fun _ => 0) [2, 2] [30] 1 1 1 = .error .sizeMismatch := by
  refine ⟨by decide, by decide, by decide, by decide⟩

/-!
## Helper lemmas about the copy loops and input consumption
-/

theorem copyBack_length (n fill : Nat) :
    ∀ reps out src, out.length ≤ n →
      (copyBack out src reps n fill).length = min (out.length + reps) n := by
  intro reps
  induction reps with
  | zero => intro out src h; rw [copyBack]; omega
  | succ r ih =>
    intro out src h
    rw [copyBack]
    by_cases hlt : out.length < n
    · rw [if_pos hlt, ih _ _ (by simp; omega)]
      simp
      omega
    · rw [if_neg hlt]
      omega

theorem copyLit_length (n : Nat) :
    ∀ src out, out.length ≤ n →
      (copyLit out src n).length = min (out.length + src.length) n := by
  intro src
  induction src with
  | nil => intro out h; rw [copyLit]; simp; omega
  | cons b rest ih =>
    intro out h
    rw [copyLit]
    by_cases hlt : out.length < n
    · rw [if_pos hlt, ih _ (by simp; omega)]
      simp
      omega
    · rw [if_neg hlt]
      simp
      omega

theorem copyLit_eq_append (n : Nat) :
    ∀ src out, out.length + src.length ≤ n → copyLit out src n = out ++ src := by
  intro src
  induction src with
  | nil => intro out h; rw [copyLit]; simp
  | cons b rest ih =>
    intro out h
    rw [copyLit, if_pos (by simp at h ⊢; omega), ih _ (by simp at h ⊢; omega)]
    simp

theorem copyBack_at_cursor (n fill : Nat) :
    ∀ reps out, out.length + reps ≤ n →
      copyBack out out.length reps n fill = out ++ List.replicate reps fill := by
  intro reps
  induction reps with
  | zero => intro out h; rw [copyBack]; simp
  | succ r ih =>
    intro out h
    rw [copyBack, if_pos (by omega), List.getD_eq_default _ _ (le_refl _)]
    have h2 : out.length + 1 = (out ++ [fill]).length := by simp
    rw [h2, ih _ (by simp; omega)]
    simp [List.replicate_succ]

theorem readU8_append {l : List Nat} {b : Nat} {rest : List Nat} (e : List Nat)
    (h : readU8 l = .ok (b, rest)) : readU8 (l ++ e) = .ok (b, rest ++ e) := by
  cases l with
  | nil => cases h
  | cons a t =>
    rw [readU8] at h
    injection h with h'
    injection h' with h1 h2
    subst h1; subst h2
    rfl

theorem readU16le_append {l : List Nat} {v : Nat} {rest : List Nat} (e : List Nat)
    (h : readU16le l = .ok (v, rest)) : readU16le (l ++ e) = .ok (v, rest ++ e) := by
  match l with
  | [] => cases h
  | [a] => cases h
  | a :: b' :: t =>
    rw [readU16le] at h
    injection h with h'
    injection h' with h1 h2
    subst h1; subst h2
    rfl

theorem readBytes_append {k : Nat} {l bs rest : List Nat} (e : List Nat)
    (h : readBytes k l = .ok (bs, rest)) :
    readBytes k (l ++ e) = .ok (bs, rest ++ e) := by
  rw [readBytes] at h
  by_cases hk : k ≤ l.length
  · rw [if_pos hk] at h
    injection h with h'
    injection h' with h1 h2
    subst h1; subst h2
    rw [readBytes, if_pos (by simp; omega),
      List.take_append_of_le_length hk, List.drop_append_of_le_length hk]
  · rw [if_neg hk] at h
    cases h

theorem lzToken_append {isRef : Bool} {out input : List Nat} {n fill : Nat}
    {out2 inp2 : List Nat} (e : List Nat)
    (h : lzToken isRef out input n fill = .ok (out2, inp2)) :
    lzToken isRef out (input ++ e) n fill = .ok (out2, inp2 ++ e) := by
  cases isRef with
  | false =>
    rw [lzToken] at h ⊢
    simp only [Bool.false_eq_true, if_false] at h ⊢
    cases hu : readU8 input with
    | error err => rw [hu] at h; dsimp only at h; cases h
    | ok p =>
      obtain ⟨cnt, t⟩ := p
      rw [hu] at h
      rw [readU8_append e hu]
      dsimp only at h ⊢
      cases hb : readBytes cnt t with
      | error err => rw [hb] at h; dsimp only at h; cases h
      | ok q =>
        obtain ⟨bs, t2⟩ := q
        rw [hb] at h
        rw [readBytes_append e hb]
        dsimp only at h ⊢
        injection h with h'
        injection h' with h1 h2
        subst h1; subst h2
        rfl
  | true =>
    rw [lzToken] at h ⊢
    simp only [if_pos rfl] at h ⊢
    cases hu : readU16le input with
    | error err => rw [hu] at h; dsimp only at h; cases h
    | ok p =>
      obtain ⟨tmp, t⟩ := p
      rw [hu] at h
      rw [readU16le_append e hu]
      dsimp only at h ⊢
      by_cases hflag : (tmp &&& 8) ≠ 0
      · rw [if_pos hflag] at h ⊢
        by_cases hlb : out.length < shortLB tmp
        · rw [if_pos hlb] at h; cases h
        · rw [if_neg hlb] at h ⊢
          injection h with h'
          injection h' with h1 h2
          subst h1; subst h2
          rfl
      · rw [if_neg hflag] at h ⊢
        cases hu2 : readU8 t with
        | error err => rw [hu2] at h; dsimp only at h; cases h
        | ok q =>
          obtain ⟨b2, t2⟩ := q
          rw [hu2] at h
          rw [readU8_append e hu2]
          dsimp only at h ⊢
          by_cases hlb : out.length < longLB ((tmp <<< 8) ||| b2)
          · rw [if_pos hlb] at h; cases h
          · rw [if_neg hlb] at h ⊢
            injection h with h'
            injection h' with h1 h2
            subst h1; subst h2
            rfl

theorem lzStep_append {control : Nat} {out input : List Nat} {n fill : Nat}
    {c2 : Nat} {out2 inp2 : List Nat} (e : List Nat)
    (h : lzStep control out input n fill = .ok (c2, out2, inp2)) :
    lzStep control out (input ++ e) n fill = .ok (c2, out2, inp2 ++ e) := by
  rw [lzStep, refill] at h ⊢
  by_cases hg : (control >>> 1) &&& 0x100 = 0
  · rw [if_pos hg] at h ⊢
    cases hu : readU8 input with
    | error err => rw [hu] at h; dsimp only at h; cases h
    | ok p =>
      obtain ⟨b, t⟩ := p
      rw [hu] at h
      rw [readU8_append e hu]
      dsimp only at h ⊢
      cases ht : lzToken (decide ((b ||| 0xFF00) &&& 1 = 1)) out t n fill with
      | error err => rw [ht] at h; dsimp only at h; cases h
      | ok q =>
        obtain ⟨o2, i2⟩ := q
        rw [ht] at h
        rw [lzToken_append e ht]
        dsimp only at h ⊢
        injection h with h'
        injection h' with h1 h2
        subst h1
        injection h2 with h3 h4
        subst h3; subst h4
        rfl
  · rw [if_neg hg] at h ⊢
    dsimp only at h ⊢
    cases ht : lzToken (decide ((control >>> 1) &&& 1 = 1)) out input n fill with
    | error err => rw [ht] at h; dsimp only at h; cases h
    | ok q =>
      obtain ⟨o2, i2⟩ := q
      rw [ht] at h
      rw [lzToken_append e ht]
      dsimp only at h ⊢
      injection h with h'
      injection h' with h1 h2
      subst h1
      injection h2 with h3 h4
      subst h3; subst h4
      rfl

theorem lzToken_length_le {isRef : Bool} {out input : List Nat} {n fill : Nat}
    {out2 inp2 : List Nat}
    (h : lzToken isRef out input n fill = .ok (out2, inp2))
    (hle : out.length ≤ n) : out2.length ≤ n := by
  cases isRef with
  | false =>
    rw [lzToken] at h
    simp only [Bool.false_eq_true, if_false] at h
    cases hu : readU8 input with
    | error err => rw [hu] at h; dsimp only at h; cases h
    | ok p =>
      obtain ⟨cnt, t⟩ := p
      rw [hu] at h
      dsimp only at h
      cases hb : readBytes cnt t with
      | error err => rw [hb] at h; dsimp only at h; cases h
      | ok q =>
        obtain ⟨bs, t2⟩ := q
        rw [hb] at h
        dsimp only at h
        injection h with h'
        injection h' with h1 h2
        subst h1
        rw [copyLit_length n bs out hle]
        omega
  | true =>
    rw [lzToken] at h
    simp only [if_pos rfl] at h
    cases hu : readU16le input with
    | error err => rw [hu] at h; dsimp only at h; cases h
    | ok p =>
      obtain ⟨tmp, t⟩ := p
      rw [hu] at h
      dsimp only at h
      by_cases hflag : (tmp &&& 8) ≠ 0
      · rw [if_pos hflag] at h
        by_cases hlb : out.length < shortLB tmp
        · rw [if_pos hlb] at h; cases h
        · rw [if_neg hlb] at h
          injection h with h'
          injection h' with h1 h2
          subst h1
          rw [copyBack_length n fill _ out _ hle]
          omega
      · rw [if_neg hflag] at h
        cases hu2 : readU8 t with
        | error err => rw [hu2] at h; dsimp only at h; cases h
        | ok q =>
          obtain ⟨b2, t2⟩ := q
          rw [hu2] at h
          dsimp only at h
          by_cases hlb : out.length < longLB ((tmp <<< 8) ||| b2)
          · rw [if_pos hlb] at h; cases h
          · rw [if_neg hlb] at h
            injection h with h'
            injection h' with h1 h2
            subst h1
            rw [copyBack_length n fill _ out _ hle]
            omega

theorem lzStep_length_le {control : Nat} {out input : List Nat} {n fill : Nat}
    {c2 : Nat} {out2 inp2 : List Nat}
    (h : lzStep control out input n fill = .ok (c2, out2, inp2))
    (hle : out.length ≤ n) : out2.length ≤ n := by
  rw [lzStep, refill] at h
  by_cases hg : (control >>> 1) &&& 0x100 = 0
  · rw [if_pos hg] at h
    cases hu : readU8 input with
    | error err => rw [hu] at h; dsimp only at h; cases h
    | ok p =>
      obtain ⟨b, t⟩ := p
      rw [hu] at h
      dsimp only at h
      cases ht : lzToken (decide ((b ||| 0xFF00) &&& 1 = 1)) out t n fill with
      | error err => rw [ht] at h; dsimp only at h; cases h
      | ok q =>
        obtain ⟨o2, i2⟩ := q
        rw [ht] at h
        dsimp only at h
        injection h with h'
        injection h' with h1 h2
        subst h1
        injection h2 with h3 h4
        subst h3
        exact lzToken_length_le ht hle
  · rw [if_neg hg] at h
    dsimp only at h
    cases ht : lzToken (decide ((control >>> 1) &&& 1 = 1)) out input n fill with
    | error err => rw [ht] at h; dsimp only at h; cases h
    | ok q =>
      obtain ⟨o2, i2⟩ := q
      rw [ht] at h
      dsimp only at h
      injection h with h'
      injection h' with h1 h2
      subst h1
      injection h2 with h3 h4
      subst h3
      exact lzToken_length_le ht hle

theorem lzLoop_length {n fill : Nat} :
    ∀ fuel control out input o rem, out.length ≤ n →
      lzLoop fuel control out input n fill = .ok (o, rem) → o.length = n := by
  intro fuel
  induction fuel with
  | zero => intro control out input o rem hle h; cases h
  | succ f ih =>
    intro control out input o rem hle h
    rw [lzLoop] at h
    by_cases hlt : out.length < n
    · rw [if_pos hlt] at h
      cases hs : lzStep control out input n fill with
      | error err => rw [hs] at h; cases h
      | ok q =>
        obtain ⟨c2, out2, inp2⟩ := q
        rw [hs] at h
        dsimp only at h
        exact ih c2 out2 inp2 o rem (lzStep_length_le hs hle) h
    · rw [if_neg hlt] at h
      injection h with h'
      injection h' with h1 h2
      subst h1
      omega

theorem lzLoop_append {n fill : Nat} :
    ∀ fuel fuel' control out input o rem e, fuel ≤ fuel' →
      lzLoop fuel control out input n fill = .ok (o, rem) →
      lzLoop fuel' control out (input ++ e) n fill = .ok (o, rem ++ e) := by
  intro fuel
  induction fuel with
  | zero => intro fuel' control out input o rem e hle h; cases h
  | succ f ih =>
    intro fuel' control out input o rem e hle h
    obtain ⟨f', rfl⟩ : ∃ f', fuel' = f' + 1 := ⟨fuel' - 1, by omega⟩
    rw [lzLoop] at h ⊢
    by_cases hlt : out.length < n
    · rw [if_pos hlt] at h ⊢
      cases hs : lzStep control out input n fill with
      | error err => rw [hs] at h; cases h
      | ok q =>
        obtain ⟨c2, out2, inp2⟩ := q
        rw [hs] at h
        rw [lzStep_append e hs]
        dsimp only at h ⊢
        exact ih f' c2 out2 inp2 o rem e (by omega) h
    · rw [if_neg hlt] at h ⊢
      injection h with h'
      injection h' with h1 h2
      subst h1; subst h2
      rfl

/-- C1: when the back-reference decompressor succeeds, its output has length
exactly `size_orig` (the decode loop runs until the output buffer is exactly
full), and compressed-stream bytes beyond the consumed prefix are left
unconsumed: appending extra bytes to the stream leaves the run unchanged,
the extra bytes only enlarging the unread remainder. -/
theorem c1_decompress_length_and_trailing_unconsumed
    (input : List Nat) (size_orig : Nat) (out rem : List Nat)
    (h : decompress input size_orig = .ok (out, rem)) :
    out.length = size_orig ∧
    ∀ extra, decompress (input ++ extra) size_orig = .ok (out, rem ++ extra) := by
  constructor
  · exact lzLoop_length (input.length + 1) 0 [] input out rem (by simp) h
  · intro extra
    unfold decompress at h ⊢
    exact lzLoop_append (input.length + 1) ((input ++ extra).length + 1) 0 [] input
      out rem extra (by simp) h

/-- C1, witness for `c1_decompress_length_and_trailing_unconsumed` on a
concrete stream (one literal run, one back-reference token). -/
theorem c1_witness :
    ([1, 2, 3, 4, 5, 6, 7, 8, 0, 0, 0, 0, 0, 0, 0, 0] : List Nat).length = 16 ∧
    decompress ([2, 8, 1, 2, 3, 4, 5, 6, 7, 8, 12, 0] ++ [9, 9]) 16 =
      .ok ([1, 2, 3, 4, 5, 6, 7, 8, 0, 0, 0, 0, 0, 0, 0, 0], [] ++ [9, 9]) :=
  ⟨(c1_decompress_length_and_trailing_unconsumed
      [2, 8, 1, 2, 3, 4, 5, 6, 7, 8, 12, 0] 16
      [1, 2, 3, 4, 5, 6, 7, 8, 0, 0, 0, 0, 0, 0, 0, 0] [] (by decide)).1,
   (c1_decompress_length_and_trailing_unconsumed
      [2, 8, 1, 2, 3, 4, 5, 6, 7, 8, 12, 0] 16
      [1, 2, 3, 4, 5, 6, 7, 8, 0, 0, 0, 0, 0, 0, 0, 0] [] (by decide)).2 [9, 9]⟩
theorem and_shiftRight_distrib (a b i : Nat) :
    (a &&& b) >>> i = (a >>> i) &&& (b >>> i) :=
  Nat.eq_of_testBit_eq (fun j => by
    simp [Nat.testBit_shiftRight, Nat.testBit_and])

theorem and_mod_16_8 (t : Nat) : t &&& 8 = (t % 16) &&& 8 := by
  conv_lhs => rw [show (8 : Nat) = 15 &&& 8 by decide]
  rw [← Nat.and_assoc]
  congr 1
  simpa using Nat.and_pow_two_sub_one_eq_mod t 4

theorem flag_bit_iff (t : Nat) : (t &&& 8 ≠ 0) ↔ 8 ≤ t % 16 := by
  rw [and_mod_16_8]
  have h : t % 16 < 16 := Nat.mod_lt _ (by norm_num)
  revert h
  generalize t % 16 = y
  intro h
  interval_cases y <;> decide

theorem shortReps_eq (tmp : Nat) : shortReps tmp = tmp % 8 + 4 := by
  unfold shortReps
  congr 1
  simpa using Nat.and_pow_two_sub_one_eq_mod tmp 3

theorem shortLB_eq (tmp : Nat) : shortLB tmp = tmp / 16 := by
  unfold shortLB
  simpa using Nat.shiftRight_eq_div_pow tmp 4

theorem longLB_eq (t : Nat) : longLB t = t / 4096 := by
  unfold longLB
  simpa using Nat.shiftRight_eq_div_pow t 12

theorem longReps_eq (t : Nat) : longReps t = ((t % 4096) / 4 + 1) * 4 + t % 4 := by
  unfold longReps
  have h1 : (t &&& 0xFFC) >>> 2 = (t % 4096) / 4 := by
    rw [and_shiftRight_distrib]
    have h2 : (0xFFC : Nat) >>> 2 = 1023 := by decide
    rw [h2]
    have h3 : t >>> 2 = t / 4 := by simpa using Nat.shiftRight_eq_div_pow t 2
    rw [h3]
    have h4 : t / 4 &&& 1023 = (t / 4) % 1024 := by
      simpa using Nat.and_pow_two_sub_one_eq_mod (t / 4) 10
    rw [h4]
    omega
  rw [h1]
  have h5 : t &&& 3 = t % 4 := by
    simpa using Nat.and_pow_two_sub_one_eq_mod t 2
  rw [h5, Nat.shiftLeft_eq]
  have h6 : ((t % 4096) / 4 + 1) * 2 ^ 2 = 2 ^ 2 * ((t % 4096) / 4 + 1) := by ring
  rw [h6, ← Nat.mul_add_lt_is_or (by omega) ((t % 4096) / 4 + 1)]
  ring

theorem shl8_or_eq (tmp b2 : Nat) (hb2 : b2 < 256) :
    (tmp <<< 8) ||| b2 = tmp * 256 + b2 := by
  rw [Nat.shiftLeft_eq]
  have h : tmp * 2 ^ 8 = 2 ^ 8 * tmp := by ring
  rw [h, ← Nat.mul_add_lt_is_or (by omega) tmp]
  ring

theorem lzStep_literal_eq (control : Nat) (out : List Nat) (n fill cnt : Nat)
    (rest : List Nat)
    (hg : (control >>> 1) &&& 0x100 ≠ 0) (hbit : (control >>> 1) &&& 1 = 0)
    (hcnt : cnt ≤ rest.length) :
    lzStep control out (cnt :: rest) n fill =
      .ok (control >>> 1, copyLit out (rest.take cnt) n, rest.drop cnt) := by
  rw [lzStep, refill, if_neg hg]
  dsimp only
  have hb : decide ((control >>> 1) &&& 1 = 1) = false := by simp [hbit]
  rw [hb, lzToken]
  simp only [Bool.false_eq_true, if_false]
  dsimp only [readU8]
  rw [readBytes, if_pos hcnt]

theorem lzStep_short_eq (control : Nat) (out : List Nat) (n fill b0 b1 : Nat)
    (rest : List Nat)
    (hg : (control >>> 1) &&& 0x100 ≠ 0) (hbit : (control >>> 1) &&& 1 = 1)
    (hb0 : b0 < 256) (hflag : 8 ≤ b0 % 16) :
    lzStep control out (b0 :: b1 :: rest) n fill =
      if out.length < (b0 + 256 * b1) / 16 then .error .badBackReference
      else .ok (control >>> 1,
        copyBack out (out.length - (b0 + 256 * b1) / 16)
          ((b0 + 256 * b1) % 8 + 4) n fill, rest) := by
  rw [lzStep, refill, if_neg hg]
  dsimp only
  have hb : decide ((control >>> 1) &&& 1 = 1) = true := by simp [hbit]
  rw [hb, lzToken]
  simp only [if_pos rfl, if_true]
  dsimp only [readU16le]
  have hflag' : (b0 + 256 * b1) &&& 8 ≠ 0 := by
    rw [flag_bit_iff]
    omega
  rw [if_pos hflag', shortLB_eq, shortReps_eq]
  by_cases hlb : out.length < (b0 + 256 * b1) / 16
  · simp only [if_pos hlb]
  · simp only [if_neg hlb]

theorem lzStep_long_eq (control : Nat) (out : List Nat) (n fill b0 b1 b2 : Nat)
    (rest : List Nat)
    (hg : (control >>> 1) &&& 0x100 ≠ 0) (hbit : (control >>> 1) &&& 1 = 1)
    (hb0 : b0 < 256) (hb2 : b2 < 256) (hflag : b0 % 16 < 8) :
    lzStep control out (b0 :: b1 :: b2 :: rest) n fill =
      if out.length < (b0 + 256 * b1) / 16 then .error .badBackReference
      else .ok (control >>> 1,
        copyBack out (out.length - (b0 + 256 * b1) / 16)
          ((((b0 + 256 * b1) * 256 + b2) % 4096 / 4 + 1) * 4 +
            ((b0 + 256 * b1) * 256 + b2) % 4) n fill, rest) := by
  rw [lzStep, refill, if_neg hg]
  dsimp only
  have hb : decide ((control >>> 1) &&& 1 = 1) = true := by simp [hbit]
  rw [hb, lzToken]
  simp only [if_pos rfl, if_true]
  dsimp only [readU16le]
  have hflag' : ¬((b0 + 256 * b1) &&& 8 ≠ 0) := by
    rw [flag_bit_iff]
    omega
  rw [if_neg hflag']
  dsimp only [readU8]
  rw [shl8_or_eq _ _ hb2, longLB_eq, longReps_eq]
  have hdiv : ((b0 + 256 * b1) * 256 + b2) / 4096 = (b0 + 256 * b1) / 16 := by
    omega
  rw [hdiv]
  by_cases hlb : out.length < (b0 + 256 * b1) / 16
  · simp only [if_pos hlb]
  · simp only [if_neg hlb]
/-- C2: token decoding of the back-reference scheme.  A 0 control bit reads an
8-bit count `cnt` and copies the next `cnt` input bytes verbatim; a 1 control
bit reads a two-byte little-endian token `tmp = b0 + 256*b1`: if bit 3 of the
low byte is set (`8 ≤ b0 % 16`) the token is short with repeat count
`tmp % 8 + 4` (low 3 bits plus 4) and look-behind `tmp / 16` (high 12 bits);
otherwise a third byte is read and the token is long with repeat count
`(((packed & 0xFFC) >> 2) + 1) << 2 | (packed & 3)` — arithmetically
`((packed % 4096) / 4 + 1) * 4 + packed % 4` for `packed = tmp*256 + b2` —
and the same 4-bit-shifted look-behind `tmp / 16`. -/
theorem c2_token_decoding (control : Nat) (out : List Nat) (n fill : Nat)
    (hg : (control >>> 1) &&& 0x100 ≠ 0) :
    ((control >>> 1) &&& 1 = 0 →
      ∀ (cnt : Nat) (rest : List Nat), cnt ≤ rest.length → out.length + cnt ≤ n →
        lzStep control out (cnt :: rest) n fill =
          .ok (control >>> 1, out ++ rest.take cnt, rest.drop cnt)) ∧
    ((control >>> 1) &&& 1 = 1 →
      ∀ (b0 b1 : Nat) (rest : List Nat), b0 < 256 → 8 ≤ b0 % 16 →
        lzStep control out (b0 :: b1 :: rest) n fill =
          if out.length < (b0 + 256 * b1) / 16 then .error .badBackReference
          else .ok (control >>> 1,
            copyBack out (out.length - (b0 + 256 * b1) / 16)
              ((b0 + 256 * b1) % 8 + 4) n fill, rest)) ∧
    ((control >>> 1) &&& 1 = 1 →
      ∀ (b0 b1 b2 : Nat) (rest : List Nat), b0 < 256 → b2 < 256 → b0 % 16 < 8 →
        lzStep control out (b0 :: b1 :: b2 :: rest) n fill =
          if out.length < (b0 + 256 * b1) / 16 then .error .badBackReference
          else .ok (control >>> 1,
            copyBack out (out.length - (b0 + 256 * b1) / 16)
              ((((b0 + 256 * b1) * 256 + b2) % 4096 / 4 + 1) * 4 +
                ((b0 + 256 * b1) * 256 + b2) % 4) n fill, rest)) := by
  refine ⟨fun hbit cnt rest h1 h2 => ?_,
          fun hbit b0 b1 rest h1 h2 => lzStep_short_eq control out n fill b0 b1 rest hg hbit h1 h2,
          fun hbit b0 b1 b2 rest h1 h2 h3 =>
            lzStep_long_eq control out n fill b0 b1 b2 rest hg hbit h1 h2 h3⟩
  rw [lzStep_literal_eq control out n fill cnt rest hg hbit h1,
    copyLit_eq_append n (rest.take cnt) out (by simp; omega)]

/-- C2, witness for `c2_token_decoding`: a literal packet, a short token and a
long token at concrete states (`0x200 >>> 1 = 0x100` has the guard bit set and
control bit 0; `0x202 >>> 1 = 0x101` has it set with control bit 1). -/
theorem c2_witness :
    lzStep 0x200 [] (2 :: [5, 6, 7]) 4 0 =
      .ok (0x200 >>> 1, [] ++ [5, 6, 7].take 2, [5, 6, 7].drop 2) ∧
    lzStep 0x202 [9] (0x1C :: 0 :: [3]) 4 0 =
      (if ([9] : List Nat).length < (0x1C + 256 * 0) / 16 then .error .badBackReference
       else .ok (0x202 >>> 1,
         copyBack [9] (([9] : List Nat).length - (0x1C + 256 * 0) / 16)
           ((0x1C + 256 * 0) % 8 + 4) 4 0, [3])) ∧
    lzStep 0x202 [] (2 :: 0 :: 0 :: [8]) 4 0 =
      (if ([] : List Nat).length < (2 + 256 * 0) / 16 then .error .badBackReference
       else .ok (0x202 >>> 1,
         copyBack [] (([] : List Nat).length - (2 + 256 * 0) / 16)
           ((((2 + 256 * 0) * 256 + 0) % 4096 / 4 + 1) * 4 +
             ((2 + 256 * 0) * 256 + 0) % 4) 4 0, [8])) :=
  ⟨(c2_token_decoding 0x200 [] 4 0 (by decide)).1 (by decide) 2 [5, 6, 7]
      (by decide) (by decide),
   (c2_token_decoding 0x202 [9] 4 0 (by decide)).2.1 (by decide) 0x1C 0 [3]
      (by decide) (by decide),
   (c2_token_decoding 0x202 [] 4 0 (by decide)).2.2 (by decide) 2 0 0 [8]
      (by decide) (by decide) (by decide)⟩

/-- C4: for a back-reference token (short form `8 ≤ b0 % 16`, long form
otherwise) the decompressor fails with the bad-back-reference error exactly
when the look-behind distance `(b0 + 256*b1) / 16` exceeds the number of bytes
already produced (`src_ptr = output_ptr - look_behind` precedes the output
start); otherwise the copy proceeds, and it stops early at the declared output
size: the copy loop's result length is `min (produced + repetitions) n`. -/
theorem c4_bad_back_reference_iff (control : Nat) (out : List Nat)
    (n fill b0 b1 b2 : Nat) (rest : List Nat)
    (hg : (control >>> 1) &&& 0x100 ≠ 0) (hbit : (control >>> 1) &&& 1 = 1)
    (hb0 : b0 < 256) (hb2 : b2 < 256) :
    (8 ≤ b0 % 16 →
      (lzStep control out (b0 :: b1 :: rest) n fill = .error .badBackReference ↔
        out.length < (b0 + 256 * b1) / 16)) ∧
    (b0 % 16 < 8 →
      (lzStep control out (b0 :: b1 :: b2 :: rest) n fill = .error .badBackReference ↔
        out.length < (b0 + 256 * b1) / 16)) ∧
    (∀ src reps, out.length ≤ n →
      (copyBack out src reps n fill).length = min (out.length + reps) n) := by
  refine ⟨fun hflag => ?_, fun hflag => ?_,
          fun src reps hle => copyBack_length n fill reps out src hle⟩
  · rw [lzStep_short_eq control out n fill b0 b1 rest hg hbit hb0 hflag]
    by_cases hlb : out.length < (b0 + 256 * b1) / 16
    · simp [if_pos hlb, hlb]
    · simp [if_neg hlb, hlb]
  · rw [lzStep_long_eq control out n fill b0 b1 b2 rest hg hbit hb0 hb2 hflag]
    by_cases hlb : out.length < (b0 + 256 * b1) / 16
    · simp [if_pos hlb, hlb]
    · simp [if_neg hlb, hlb]

/-- C4, witness for `c4_bad_back_reference_iff`: with no bytes produced, a
short token with look-behind 1 fails, and the copy-length bound holds at a
concrete state. -/
theorem c4_witness :
    (lzStep 0x202 [] (0x1C :: 0 :: [3]) 4 0 = .error .badBackReference ↔
      ([] : List Nat).length < (0x1C + 256 * 0) / 16) ∧
    (copyBack [9] 0 7 4 0).length = min (([9] : List Nat).length + 7) 4 :=
  ⟨(c4_bad_back_reference_iff 0x202 [] 4 0 0x1C 0 0 [3] (by decide) (by decide)
      (by decide) (by decide)).1 (by decide),
   (c4_bad_back_reference_iff 0x202 [9] 4 0 0x1C 0 0 [3] (by decide) (by decide)
      (by decide) (by decide)).2.2 0 7 (by decide)⟩

/-- C5, counterexample: after the literal run 1..8, the short token
`0x0C 0x00` (repeat 8, look-behind 0) produces eight 0-bytes — the output
buffer's zero fill — not the eight most recently produced bytes 1..8. -/
theorem c5_counterexample_lookbehind_zero :
    decompress [2, 8, 1, 2, 3, 4, 5, 6, 7, 8, 12, 0] 16 =
      .ok ([1, 2, 3, 4, 5, 6, 7, 8, 0, 0, 0, 0, 0, 0, 0, 0], []) ∧
    ([1, 2, 3, 4, 5, 6, 7, 8, 0, 0, 0, 0, 0, 0, 0, 0] : List Nat) ≠
      [1, 2, 3, 4, 5, 6, 7, 8, 1, 2, 3, 4, 5, 6, 7, 8] := by
  refine ⟨by decide, by decide⟩

/-- C5, amended: the token with low byte `0b0000_1100` and zero distance bits
has repeat count 8 and look-behind 0, so `src_ptr` equals `output_ptr` and the
copy reads the not-yet-written region of the output buffer: it appends eight
copies of the buffer's initial fill byte (0 for the zero-filled `bstr`),
independent of the bytes already produced. -/
theorem c5_lookbehind_zero_writes_fill (control : Nat) (out : List Nat)
    (n fill : Nat) (rest : List Nat)
    (hg : (control >>> 1) &&& 0x100 ≠ 0) (hbit : (control >>> 1) &&& 1 = 1)
    (hroom : out.length + 8 ≤ n) :
    lzStep control out (12 :: 0 :: rest) n fill =
      .ok (control >>> 1, out ++ List.replicate 8 fill, rest) := by
  rw [lzStep_short_eq control out n fill 12 0 rest hg hbit (by norm_num) (by norm_num)]
  norm_num
  exact copyBack_at_cursor n fill 8 out hroom

/-- C5, witness for `c5_lookbehind_zero_writes_fill` at a concrete state with
two bytes already produced. -/
theorem c5_witness :
    lzStep 0x202 [7, 7] (12 :: 0 :: [1]) 12 0 =
      .ok (0x202 >>> 1, [7, 7] ++ List.replicate 8 0, [1]) :=
  c5_lookbehind_zero_writes_fill 0x202 [7, 7] 12 0 [1] (by decide) (by decide)
    (by decide)
theorem appendReps_length :
    ∀ (k : Nat) (out chunk : List Nat),
      (appendReps out chunk k).length = out.length + k * chunk.length := by
  intro k
  induction k with
  | zero => intro out chunk; rw [appendReps]; omega
  | succ r ih =>
    intro out chunk
    rw [appendReps, ih]
    simp
    ring

theorem appendReps_eq :
    ∀ (k : Nat) (out chunk : List Nat),
      appendReps out chunk k = out ++ (List.replicate k chunk).flatten := by
  intro k
  induction k with
  | zero => intro out chunk; rw [appendReps]; simp
  | succ r ih =>
    intro out chunk
    rw [appendReps, ih]
    simp [List.replicate_succ]

theorem readChunks_length {ch : Nat} :
    ∀ (k : Nat) (out input o2 rest : List Nat),
      readChunks k ch out input = .ok (o2, rest) →
      o2.length = out.length + k * ch := by
  intro k
  induction k with
  | zero =>
    intro out input o2 rest h
    rw [readChunks] at h
    injection h with h'
    injection h' with h1 h2
    subst h1
    omega
  | succ r ih =>
    intro out input o2 rest h
    rw [readChunks] at h
    cases hr : readBytes ch input with
    | error err => rw [hr] at h; dsimp only at h; cases h
    | ok q =>
      obtain ⟨chunk, rest2⟩ := q
      rw [hr] at h
      dsimp only at h
      rw [readBytes] at hr
      by_cases hk : ch ≤ input.length
      · rw [if_pos hk] at hr
        injection hr with hr'
        injection hr' with hr1 hr2
        subst hr1
        rw [ih _ _ _ _ h]
        simp
        ring_nf
        omega
      · rw [if_neg hk] at hr
        cases hr

theorem readChunks_append_eq {ch : Nat} :
    ∀ (k : Nat) (out bytes rest : List Nat), bytes.length = k * ch →
      readChunks k ch out (bytes ++ rest) = .ok (out ++ bytes, rest) := by
  intro k
  induction k with
  | zero =>
    intro out bytes rest hlen
    have : bytes = [] := List.eq_nil_of_length_eq_zero (by omega)
    subst this
    rw [readChunks]
    simp
  | succ r ih =>
    intro out bytes rest hlen
    rw [Nat.succ_mul] at hlen
    rw [readChunks, readBytes,
      if_pos (by simp; omega : ch ≤ (bytes ++ rest).length)]
    dsimp only
    have hble : ch ≤ bytes.length := by omega
    rw [List.take_append_of_le_length hble, List.drop_append_of_le_length hble,
      ih (out ++ bytes.take ch) (bytes.drop ch) rest
        (by simp; omega)]
    rw [List.append_assoc, List.take_append_drop]

set_option maxRecDepth 4000 in
theorem high_bit_iff : ∀ c < 256, (c &&& 0x80 ≠ 0 ↔ 128 ≤ c) := by decide

theorem low7_eq_mod (c : Nat) : c &&& 0x7F = c % 128 := by
  simpa using Nat.and_pow_two_sub_one_eq_mod c 7

theorem rleLoop_bounds (target ch : Nat) (hch : 0 < ch) :
    ∀ fuel (out input o rem : List Nat),
      out.length < target + 128 * ch →
      rleLoop fuel out input target ch = .ok (o, rem) →
      target ≤ o.length ∧ o.length < target + 128 * ch := by
  intro fuel
  induction fuel with
  | zero => intro out input o rem hb h; cases h
  | succ f ih =>
    intro out input o rem hb h
    rw [rleLoop] at h
    by_cases hlt : out.length < target
    · rw [if_pos hlt] at h
      cases hu : readU8 input with
      | error err => rw [hu] at h; dsimp only at h; cases h
      | ok p =>
        obtain ⟨c, rest⟩ := p
        rw [hu] at h
        dsimp only at h
        have hreps : (c &&& 0x7F) + 1 ≤ 128 := by
          have := Nat.and_le_right (n := c) (m := 0x7F)
          omega
        by_cases hbit : c &&& 0x80 ≠ 0
        · rw [if_pos hbit] at h
          cases hr : readBytes ch rest with
          | error err => rw [hr] at h; dsimp only at h; cases h
          | ok q =>
            obtain ⟨chunk, rest2⟩ := q
            rw [hr] at h
            dsimp only at h
            have hlen : chunk.length = ch := by
              rw [readBytes] at hr
              by_cases hk : ch ≤ rest.length
              · rw [if_pos hk] at hr
                injection hr with hr'
                injection hr' with hr1 hr2
                subst hr1
                simp
                omega
              · rw [if_neg hk] at hr
                cases hr
            refine ih _ _ o rem ?_ h
            rw [appendReps_length, hlen]
            have hmul : ((c &&& 0x7F) + 1) * ch ≤ 128 * ch :=
              Nat.mul_le_mul_right ch hreps
            omega
        · rw [if_neg hbit] at h
          cases hr : readChunks ((c &&& 0x7F) + 1) ch out rest with
          | error err => rw [hr] at h; dsimp only at h; cases h
          | ok q =>
            obtain ⟨out2, rest2⟩ := q
            rw [hr] at h
            dsimp only at h
            refine ih _ _ o rem ?_ h
            rw [readChunks_length _ _ _ _ _ hr]
            have hmul : ((c &&& 0x7F) + 1) * ch ≤ 128 * ch :=
              Nat.mul_le_mul_right ch hreps
            omega
    · rw [if_neg hlt] at h
      injection h with h'
      injection h' with h1 h2
      subst h1
      omega

/-- C8, counterexample: with `width*height*channels = 4`, the single RLE
packet `0x87 0x09` (high bit set, repeat count 8) replicates its chunk eight
times, producing 8 bytes — the output exceeds `width*height*channels`, so
"never exceeds" fails (the final packet is appended whole, overshooting). -/
theorem c8_counterexample_overshoot :
    read_compressed_pixel_data [0x87, 9] 2 2 1 =
      .ok ([9, 9, 9, 9, 9, 9, 9, 9], []) ∧
    2 * 2 * 1 < ([9, 9, 9, 9, 9, 9, 9, 9] : List Nat).length := by
  refine ⟨by decide, by decide⟩

/-- C8, amended: each packet's control byte yields `(low 7 bits) + 1`
repetitions; the high bit selects replicate-one-chunk versus literal chunks;
the loop stops at the first packet boundary at which at least
`width*height*channels` bytes have been produced — the output can overshoot
that target by less than one packet (`128 * channels` bytes), since the final
packet is appended whole. -/
theorem c8_rle_packets_and_bounds (width height channels : Nat)
    (hch : 0 < channels) :
    (∀ input out rem,
      read_compressed_pixel_data input width height channels = .ok (out, rem) →
      width * height * channels ≤ out.length ∧
      out.length < width * height * channels + 128 * channels) ∧
    (∀ (fuel : Nat) (out : List Nat) (target c : Nat) (chunk rest : List Nat),
      out.length < target → c < 256 → 128 ≤ c → chunk.length = channels →
      rleLoop (fuel + 1) out (c :: (chunk ++ rest)) target channels =
        rleLoop fuel (out ++ (List.replicate (c % 128 + 1) chunk).flatten) rest
          target channels) ∧
    (∀ (fuel : Nat) (out : List Nat) (target c : Nat) (bytes rest : List Nat),
      out.length < target → c < 128 → bytes.length = (c + 1) * channels →
      rleLoop (fuel + 1) out (c :: (bytes ++ rest)) target channels =
        rleLoop fuel (out ++ bytes) rest target channels) := by
  refine ⟨fun input out rem h => ?_,
          fun fuel out target c chunk rest hlt hc hbit hlen => ?_,
          fun fuel out target c bytes rest hlt hc hlen => ?_⟩
  · exact rleLoop_bounds (width * height * channels) channels hch
      (input.length + 1) [] input out rem (by simp; omega) h
  · rw [rleLoop, if_pos hlt]
    dsimp only [readU8]
    rw [if_pos ((high_bit_iff c hc).2 hbit)]
    rw [readBytes, if_pos (by simp [hlen] : channels ≤ (chunk ++ rest).length)]
    dsimp only
    rw [List.take_append_of_le_length (by omega), ← hlen, List.take_length,
      List.drop_append_of_le_length (le_refl _), List.drop_length,
      List.nil_append, appendReps_eq, low7_eq_mod]
  · rw [rleLoop, if_pos hlt]
    dsimp only [readU8]
    have hbitf : ¬(c &&& 0x80 ≠ 0) := by
      rw [high_bit_iff c (by omega)]
      omega
    rw [if_neg hbitf, low7_eq_mod, Nat.mod_eq_of_lt hc,
      readChunks_append_eq (c + 1) out bytes rest hlen]

/-- C8, witness for `c8_rle_packets_and_bounds`: the bounds at the concrete
overshooting stream, one concrete replicated packet, one concrete literal
packet. -/
theorem c8_witness :
    (2 * 2 * 1 ≤ ([9, 9, 9, 9, 9, 9, 9, 9] : List Nat).length ∧
      ([9, 9, 9, 9, 9, 9, 9, 9] : List Nat).length < 2 * 2 * 1 + 128 * 1) ∧
    rleLoop (1 + 1) [] (135 :: ([9] ++ [])) 4 1 =
      rleLoop 1 ([] ++ (List.replicate (135 % 128 + 1) [9]).flatten) [] 4 1 ∧
    rleLoop (1 + 1) [] (1 :: ([5, 6] ++ [])) 4 1 =
      rleLoop 1 ([] ++ [5, 6]) [] 4 1 :=
  ⟨(c8_rle_packets_and_bounds 2 2 1 (by decide)).1 [0x87, 9]
      [9, 9, 9, 9, 9, 9, 9, 9] [] (by decide),
   (c8_rle_packets_and_bounds 2 2 1 (by decide)).2.1 1 [] 4 135 [9] []
      (by decide) (by decide) (by decide) (by decide),
   (c8_rle_packets_and_bounds 2 2 1 (by decide)).2.2 1 [] 4 1 [5, 6] []
      (by decide) (by decide) (by decide)⟩
theorem getB_set_self {l : List Nat} {i v : Nat} (h : i < l.length) :
    getB (l.set i v) i = v := by
  unfold getB
  rw [List.getD_eq_getElem?_getD, List.getElem?_set_self h]
  rfl

theorem getB_set_ne {l : List Nat} {i j v : Nat} (h : i ≠ j) :
    getB (l.set i v) j = getB l j := by
  unfold getB
  rw [List.getD_eq_getElem?_getD, List.getElem?_set_ne h,
    ← List.getD_eq_getElem?_getD]

theorem getB_eq_getElem {l : List Nat} {i : Nat} (h : i < l.length) :
    getB l i = l[i] := by
  unfold getB
  rw [List.getD_eq_getElem?_getD, List.getElem?_eq_getElem h]
  rfl

theorem sub8_sub8 (a b : Nat) : sub8 a (sub8 a b) = b % 256 := by
  unfold sub8
  omega

theorem fwdRow1_length (o : List Nat) (ch : Nat) :
    (fwdRow1 o ch).length = o.length := by
  unfold fwdRow1
  simp

theorem fwdRow2_length (prev : Nat → Nat) (o : List Nat) :
    (fwdRow2 prev o).length = o.length := by
  unfold fwdRow2
  simp

theorem fwdRow4_length (prev : Nat → Nat) (o : List Nat) (ch : Nat) :
    (fwdRow4 prev o ch).length = o.length := by
  unfold fwdRow4
  simp

theorem fwdRow1_getB (o : List Nat) (ch x : Nat) (h : x < o.length) :
    getB (fwdRow1 o ch) x =
      if x < ch then getB o x else sub8 (getB o (x - ch)) (getB o x) := by
  unfold fwdRow1 getB
  rw [List.getD_eq_getElem?_getD,
    List.getElem?_eq_getElem (by simpa using h)]
  simp [getB]

theorem fwdRow2_getB (prev : Nat → Nat) (o : List Nat) (x : Nat)
    (h : x < o.length) :
    getB (fwdRow2 prev o) x = sub8 (prev x) (getB o x) := by
  unfold fwdRow2 getB
  rw [List.getD_eq_getElem?_getD,
    List.getElem?_eq_getElem (by simpa using h)]
  simp [getB]

theorem fwdRow4_getB (prev : Nat → Nat) (o : List Nat) (ch x : Nat)
    (h : x < o.length) :
    getB (fwdRow4 prev o ch) x =
      if x < ch then getB o x
      else sub8 ((prev x + getB o (x - ch)) / 2) (getB o x) := by
  unfold fwdRow4 getB
  rw [List.getD_eq_getElem?_getD,
    List.getElem?_eq_getElem (by simpa using h)]
  simp [getB]

theorem foldl_recon (o s : List Nat) (f : List Nat → Nat → Nat) (fo : Nat → Nat)
    (x0 : Nat)
    (hlen : s.length = o.length)
    (hbytes : ∀ i, i < o.length → getB o i < 256)
    (hf : ∀ (b : List Nat) (x : Nat), x0 ≤ x → x < o.length →
      (∀ i, i < x → getB b i = getB o i) → f b x = fo x)
    (hs : ∀ x, x0 ≤ x → x < o.length → getB s x = sub8 (fo x) (getB o x)) :
    ∀ (k x : Nat) (b : List Nat), x0 ≤ x → x + k = o.length →
      b.length = o.length →
      (∀ i, i < x → getB b i = getB o i) →
      (∀ i, x ≤ i → getB b i = getB s i) →
      (List.range' x k).foldl (fun b x => b.set x (sub8 (f b x) (getB b x))) b = o := by
  intro k
  induction k with
  | zero =>
    intro x b hx0 hxk hblen hlow hhigh
    rw [show List.range' x 0 = [] from rfl, List.foldl_nil]
    apply List.ext_getElem (by omega)
    intro i h1 h2
    have hi := hlow i (by omega)
    rw [getB_eq_getElem h1, getB_eq_getElem h2] at hi
    exact hi
  | succ kk ih =>
    intro x b hx0 hxk hblen hlow hhigh
    rw [List.range'_succ, List.foldl_cons]
    refine ih (x + 1) _ (by omega) (by omega) (by simp [hblen]) ?_ ?_
    · intro i hi
      by_cases hix : i = x
      · subst hix
        rw [getB_set_self (by omega)]
        rw [hf b i hx0 (by omega) hlow, hhigh i (le_refl i),
          hs i hx0 (by omega), sub8_sub8]
        exact Nat.mod_eq_of_lt (hbytes i (by omega))
      · rw [getB_set_ne (fun hh => hix hh.symm)]
        exact hlow i (by omega)
    · intro i hi
      rw [getB_set_ne (by omega)]
      exact hhigh i (by omega)

/-- C7: each delta filter's reconstruction row loop is the exact inverse of
the corresponding forward difference/average transform — for every original
row with byte-valued entries, applying the forward transform and then the
code's row reconstruction returns the original row bit-for-bit, for code 1
(horizontal), code 2 (vertical, with any previous row), and code 4 (average). -/
theorem c7_delta_filters_roundtrip (o : List Nat) (ch : Nat) (prev : Nat → Nat)
    (hbytes : ∀ v ∈ o, v < 256) (hch : 1 ≤ ch) (hchlen : ch ≤ o.length) :
    rowRecon1 (fwdRow1 o ch) 0 ch o.length = o ∧
    rowRecon2 prev (fwdRow2 prev o) 0 o.length = o ∧
    rowRecon4 prev (fwdRow4 prev o ch) 0 ch o.length = o := by
  have hbytes' : ∀ i, i < o.length → getB o i < 256 := by
    intro i hi
    rw [getB_eq_getElem hi]
    exact hbytes _ (List.getElem_mem hi)
  refine ⟨?_, ?_, ?_⟩
  · unfold rowRecon1
    simp only [Nat.zero_add]
    refine foldl_recon o (fwdRow1 o ch) (fun b x => getB b (x - ch))
      (fun x => getB o (x - ch)) ch (fwdRow1_length o ch) hbytes'
      ?_ ?_ (o.length - ch) ch (fwdRow1 o ch) (le_refl ch) (by omega)
      (fwdRow1_length o ch) ?_ ?_
    · intro b x hx0 hxlen hinv
      exact hinv (x - ch) (by omega)
    · intro x hx0 hxlen
      rw [fwdRow1_getB o ch x hxlen, if_neg (by omega)]
    · intro i hi
      rw [fwdRow1_getB o ch i (by omega), if_pos hi]
    · intro i hi
      rfl
  · unfold rowRecon2
    simp only [Nat.zero_add]
    refine foldl_recon o (fwdRow2 prev o) (fun b x => prev x)
      prev 0 (fwdRow2_length prev o) hbytes'
      ?_ ?_ o.length 0 (fwdRow2 prev o) (le_refl 0) (by omega)
      (fwdRow2_length prev o) ?_ ?_
    · intro b x hx0 hxlen hinv
      rfl
    · intro x hx0 hxlen
      exact fwdRow2_getB prev o x hxlen
    · intro i hi
      omega
    · intro i hi
      rfl
  · unfold rowRecon4
    simp only [Nat.zero_add]
    refine foldl_recon o (fwdRow4 prev o ch) (fun b x => (prev x + getB b (x - ch)) / 2)
      (fun x => (prev x + getB o (x - ch)) / 2) ch (fwdRow4_length prev o ch) hbytes'
      ?_ ?_ (o.length - ch) ch (fwdRow4 prev o ch) (le_refl ch) (by omega)
      (fwdRow4_length prev o ch) ?_ ?_
    · intro b x hx0 hxlen hinv
      dsimp only
      rw [hinv (x - ch) (by omega)]
    · intro x hx0 hxlen
      rw [fwdRow4_getB prev o ch x hxlen, if_neg (by omega)]
    · intro i hi
      rw [fwdRow4_getB prev o ch i (by omega), if_pos hi]
    · intro i hi
      rfl

/-- C7, witness for `c7_delta_filters_roundtrip` on a concrete row. -/
theorem c7_witness :
    rowRecon1 (fwdRow1 [10, 7, 250] 1) 0 1 3 = [10, 7, 250] ∧
    rowRecon2 (fun _ => 5) (fwdRow2 (fun _ => 5) [10, 7, 250]) 0 3 = [10, 7, 250] ∧
    rowRecon4 (fun _ => 5) (fwdRow4 (fun _ => 5) [10, 7, 250] 1) 0 1 3 = [10, 7, 250] :=
  c7_delta_filters_roundtrip [10, 7, 250] 1 (fun _ => 5) (by decide) (by decide)
    (by decide)
theorem testBit_ff00_high {k : Nat} (hk : k ≤ 7) :
    (0xFF00 : Nat).testBit (k + 8) = true := by
  interval_cases k <;> decide

theorem testBit_ff00_low {k : Nat} (hk : k ≤ 7) :
    (0xFF00 : Nat).testBit k = false := by
  interval_cases k <;> decide

set_option maxRecDepth 4000 in
theorem and_256_of_lt : ∀ a < 256, a &&& 0x100 = 0 := by decide

theorem guard_bit_set {c u : Nat} (hc : c < 256) (hu : u ≤ 7) :
    ((c ||| 0xFF00) >>> u) &&& 0x100 ≠ 0 := by
  have h8 : ((c ||| 0xFF00) >>> u).testBit 8 = true := by
    rw [Nat.testBit_shiftRight, Nat.testBit_or,
      Nat.testBit_lt_two_pow
        (lt_of_lt_of_le hc (by
          calc (256 : Nat) = 2 ^ 8 := by norm_num
          _ ≤ 2 ^ (u + 8) := Nat.pow_le_pow_right (by norm_num) (by omega))),
      testBit_ff00_high hu]
    rfl
  intro h0
  have h2 := Nat.testBit_and ((c ||| 0xFF00) >>> u) 0x100 8
  rw [h0, h8] at h2
  simp at h2
  exact absurd h2 (by decide)

theorem guard_bit_clear {c : Nat} (hc : c < 256) :
    ((c ||| 0xFF00) >>> 8) &&& 0x100 = 0 := by
  apply and_256_of_lt
  rw [Nat.shiftRight_eq_div_pow]
  have hor : (c ||| 0xFF00) < 65536 :=
    Nat.or_lt_two_pow (n := 16) (by omega) (by norm_num)
  omega

theorem ctrl_bit_eq {c u : Nat} (hc : c < 256) (hu : u ≤ 7) :
    ((((c ||| 0xFF00) >>> u) &&& 1) = 1) ↔ c.testBit u = true := by
  rw [Nat.and_one_is_mod, Nat.mod_two_eq_one_iff_testBit_zero,
    Nat.testBit_shiftRight, Nat.add_zero, Nat.testBit_or,
    testBit_ff00_low hu, Bool.or_false]

theorem ctrl_bit_decide {c u : Nat} (hc : c < 256) (hu : u ≤ 7) :
    (decide ((((c ||| 0xFF00) >>> u) &&& 1) = 1)) = c.testBit u := by
  cases hcb : c.testBit u with
  | false =>
    apply decide_eq_false
    rw [ctrl_bit_eq hc hu, hcb]
    simp
  | true =>
    apply decide_eq_true
    rw [ctrl_bit_eq hc hu]
    exact hcb

theorem lzToken_bytes {isRef : Bool} {out input : List Nat} {n fill : Nat}
    {out2 inp2 : List Nat}
    (h : lzToken isRef out input n fill = .ok (out2, inp2))
    (hb : ∀ v ∈ input, v < 256) : ∀ v ∈ inp2, v < 256 := by
  cases isRef with
  | false =>
    cases input with
    | nil => cases h
    | cons cnt t =>
      rw [lzToken] at h
      simp only [Bool.false_eq_true, if_false] at h
      dsimp only [readU8] at h
      rw [readBytes] at h
      by_cases hk : cnt ≤ t.length
      · rw [if_pos hk] at h
        dsimp only at h
        injection h with h'
        injection h' with h1 h2
        subst h2
        intro v hv
        exact hb v (List.mem_cons_of_mem _ (List.drop_subset _ _ hv))
      · rw [if_neg hk] at h
        cases h
  | true =>
    match input with
    | [] => cases h
    | [b0] => cases h
    | b0 :: b1 :: t =>
      rw [lzToken] at h
      simp only [if_pos rfl] at h
      dsimp only [readU16le] at h
      by_cases hflag : ((b0 + 256 * b1) &&& 8) ≠ 0
      · rw [if_pos hflag] at h
        by_cases hlb : out.length < shortLB (b0 + 256 * b1)
        · rw [if_pos hlb] at h
          cases h
        · rw [if_neg hlb] at h
          injection h with h'
          injection h' with h1 h2
          subst h2
          intro v hv
          exact hb v (List.mem_cons_of_mem _ (List.mem_cons_of_mem _ hv))
      · rw [if_neg hflag] at h
        cases t with
        | nil => cases h
        | cons b2 t2 =>
          dsimp only [readU8] at h
          by_cases hlb : out.length < longLB (((b0 + 256 * b1) <<< 8) ||| b2)
          · rw [if_pos hlb] at h
            cases h
          · rw [if_neg hlb] at h
            injection h with h'
            injection h' with h1 h2
            subst h2
            intro v hv
            exact hb v (List.mem_cons_of_mem _ (List.mem_cons_of_mem _
              (List.mem_cons_of_mem _ hv)))

theorem lzLoop_eq_lzLoopB (n fill : Nat) :
    ∀ (fuel c used : Nat) (out input : List Nat), c < 256 → 1 ≤ used → used ≤ 8 →
      (∀ v ∈ input, v < 256) →
      lzLoop fuel ((c ||| 0xFF00) >>> (used - 1)) out input n fill =
      lzLoopB fuel c used out input n fill := by
  intro fuel
  induction fuel with
  | zero => intro c used out input hc hu1 hu8 hbytes; rfl
  | succ f ih =>
    intro c used out input hc hu1 hu8 hbytes
    rw [lzLoop, lzLoopB]
    by_cases hlt : out.length < n
    · rw [if_pos hlt, if_pos hlt, lzStep, refill]
      have hshift : ((c ||| 0xFF00) >>> (used - 1)) >>> 1 = (c ||| 0xFF00) >>> used := by
        rw [← Nat.shiftRight_add]
        congr 1
        omega
      rw [hshift]
      by_cases hu8' : used = 8
      · subst hu8'
        rw [if_pos (guard_bit_clear hc), if_pos (by omega : 8 ≤ 8)]
        cases input with
        | nil => rfl
        | cons b rest =>
          dsimp only [readU8]
          have hb : b < 256 := hbytes b (List.mem_cons_self b rest)
          have hbit : (decide ((b ||| 0xFF00) &&& 1 = 1)) = b.testBit 0 := by
            have h0 := ctrl_bit_decide (c := b) (u := 0) hb (by omega)
            rw [Nat.shiftRight_zero] at h0
            exact h0
          rw [hbit]
          cases ht : lzToken (b.testBit 0) out rest n fill with
          | error err => rfl
          | ok q =>
            obtain ⟨out2, inp2⟩ := q
            dsimp only
            have hrec := ih b 1 out2 inp2 hb (by omega) (by omega)
              (lzToken_bytes ht (fun v hv => hbytes v (List.mem_cons_of_mem _ hv)))
            rw [Nat.sub_self, Nat.shiftRight_zero] at hrec
            exact hrec
      · have hu7 : used ≤ 7 := by omega
        rw [if_neg (guard_bit_set hc hu7), if_neg (by omega : ¬ 8 ≤ used)]
        dsimp only
        rw [ctrl_bit_decide hc hu7]
        cases ht : lzToken (c.testBit used) out input n fill with
        | error err => rfl
        | ok q =>
          obtain ⟨out2, inp2⟩ := q
          dsimp only
          exact ih c (used + 1) out2 inp2 hc (by omega) (by omega)
            (lzToken_bytes ht hbytes)
    · rw [if_neg hlt, if_neg hlt]

theorem lzLoop_init_eq (n fill fuel : Nat) (out input : List Nat)
    (hbytes : ∀ v ∈ input, v < 256) :
    lzLoop (fuel + 1) 0 out input n fill = lzLoopB (fuel + 1) 0 8 out input n fill := by
  rw [lzLoop, lzLoopB]
  by_cases hlt : out.length < n
  · rw [if_pos hlt, if_pos hlt, lzStep, refill]
    rw [if_pos (by decide : (0 : Nat) >>> 1 &&& 0x100 = 0),
      if_pos (by omega : 8 ≤ 8)]
    cases input with
    | nil => rfl
    | cons b rest =>
      dsimp only [readU8]
      have hb : b < 256 := hbytes b (List.mem_cons_self b rest)
      have hbit : (decide ((b ||| 0xFF00) &&& 1 = 1)) = b.testBit 0 := by
        have h0 := ctrl_bit_decide (c := b) (u := 0) hb (by omega)
        rw [Nat.shiftRight_zero] at h0
        exact h0
      rw [hbit]
      cases ht : lzToken (b.testBit 0) out rest n fill with
      | error err => rfl
      | ok q =>
        obtain ⟨out2, inp2⟩ := q
        dsimp only
        have hrec := lzLoop_eq_lzLoopB n fill fuel b 1 out2 inp2 hb (by omega)
          (by omega) (lzToken_bytes ht (fun v hv => hbytes v (List.mem_cons_of_mem _ hv)))
        rw [Nat.sub_self, Nat.shiftRight_zero] at hrec
        exact hrec
  · rw [if_neg hlt, if_neg hlt]

/-- C3, counterexample: the control byte `0x80` has its most significant bit
set and its least significant bit clear; the decompressor treats the first
token as a *literal* run (so the bit consumed first is the LSB), while the
spec's MSB-first reading would treat it as a back-reference and fail — the
orders disagree observably, so "MSB-first" is false. -/
theorem c3_counterexample_msb_differs :
    decompress [128, 2, 65, 66] 2 = .ok ([65, 66], []) ∧
    decompressMSB [128, 2, 65, 66] 2 = .error .badBackReference := by
  refine ⟨by decide, by decide⟩

/-- C3, amended: control bits are consumed least-significant-bit-first within
each control byte; whenever the control word's bit supply is exhausted a fresh
control byte is read and `0xFF00` is OR'd onto it as the bit-supply guard —
the mechanism is equivalent to the reference machine that takes bit `k` of the
current control byte for the `k`-th token since the last refill and reads a
fresh byte every 8 tokens. -/
theorem c3_control_bits_lsb_first (input : List Nat) (n : Nat)
    (hbytes : ∀ v ∈ input, v < 256) :
    decompress input n = decompressLSB input n := by
  unfold decompress decompressLSB
  exact lzLoop_init_eq n 0 input.length [] input hbytes

/-- C3, witness for `c3_control_bits_lsb_first` on a concrete stream. -/
theorem c3_witness :
    decompress [2, 8, 1, 2, 3, 4, 5, 6, 7, 8, 12, 0] 16 =
      decompressLSB [2, 8, 1, 2, 3, 4, 5, 6, 7, 8, 12, 0] 16 :=
  c3_control_bits_lsb_first [2, 8, 1, 2, 3, 4, 5, 6, 7, 8, 12, 0] 16 (by decide)
